import Mathlib

/-!
Verification of the retry/backoff utility and the Postiz posting-time
scheduler of the postiz-auto-poster repository.

The TypeScript sources are shallowly embedded:
* instants (JavaScript `Date` values) are minutes since the Unix epoch,
  as natural numbers: `hourOf`, `minuteOf`, `dayOf`, `getDay` mirror
  `Date.getHours` / `getMinutes` / day index / `getDay` (1970-01-01 was
  a Thursday, day-of-week 4) in a timezone-free calendar;
* asynchronous operations are functions from the attempt number to an
  `Except` value (`Except.error` models a rejected promise / thrown error);
* the database lookup `db.getScheduledPins` is an `Except Unit` value:
  `Except.error ()` models a failed query, `Except.ok pins` a successful
  one, where each pin carries its nullable `scheduled_for` instant;
* millisecond delays and random draws are rationals (`Math.random()`
  becomes an explicit parameter `rand` with `0 ≤ rand < 1`);
* retry executors additionally return the number of times the wrapped
  operation was invoked, so call-count claims are statable.
-/

namespace Spec2Proof

/-- A JavaScript `Error` value, reduced to the two fields the retry module
reads: `name` and `message`. -/
structure JsError where
  name : String
  message : String
  deriving DecidableEq

/-- The `RetryConfig` record from `src/types`: delays are milliseconds,
embedded as rationals. -/
structure RetryConfig where
  maxAttempts : Nat
  baseDelay : ℚ
  maxDelay : ℚ
  backoffFactor : ℚ
  deriving DecidableEq

/-- Function `calculateDelay` of the retry utility: exponential backoff capped at
`maxDelay`, plus uniform jitter of ±25% of the capped delay, clamped at 0
and rounded to the nearest integer.  `rand` is the value drawn from
`Math.random()`, so the jitter factor is `rand * 2 - 1 ∈ [-1, 1)`. -/
def calculateDelay (attempt : Nat) (config : RetryConfig) (rand : ℚ) : ℤ :=
  let exponentialDelay :=
    min (config.baseDelay * config.backoffFactor ^ (attempt - 1)) config.maxDelay
  let jitter := exponentialDelay * (1/4) * (rand * 2 - 1)
  max 0 (round (exponentialDelay + jitter))

/-- The wrapped error message `withRetry` throws once all attempts failed:
`` `${context} failed after ${config.maxAttempts} attempts. Last error:
${lastError.message}` ``. -/
def retryErrorMessage (context : String) (maxAttempts : Nat) (lastMessage : String) : String :=
  context ++ " failed after " ++ toString maxAttempts ++
    " attempts. Last error: " ++ lastMessage

/-- The `for` loop of `withRetry`: `attempt` is the current 1-based attempt
index and the fuel argument bounds the remaining iterations (the source
loop runs while `attempt ≤ maxAttempts`, so `maxAttempts` fuel at
`attempt = 1` is exact).  Returns the outcome together with the number of
invocations of `operation`. -/
def withRetryGo (operation : Nat → Except JsError α) (maxAttempts : Nat)
    (context : String) : Nat → Nat → Except JsError α × Nat
  | _, 0 => (Except.error ⟨"Error", ""⟩, 0)
  | attempt, fuel + 1 =>
    match operation attempt with
    | Except.ok v => (Except.ok v, 1)
    | Except.error e =>
      if attempt = maxAttempts then
        (Except.error ⟨"Error", retryErrorMessage context maxAttempts e.message⟩, 1)
      else
        let rest := withRetryGo operation maxAttempts context (attempt + 1) fuel
        (rest.1, rest.2 + 1)

/-- Function `withRetry` of the retry utility: run `operation` up to
`config.maxAttempts` times, throwing the wrapped error after the final
failed attempt.  (With `maxAttempts = 0` the source dereferences an
undefined `lastError`; the claims only concern `maxAttempts ≥ 1`.) -/
def withRetry (operation : Nat → Except JsError α) (config : RetryConfig)
    (context : String) : Except JsError α × Nat :=
  withRetryGo operation config.maxAttempts context 1 config.maxAttempts

/-- Lower-cased character list of a string (the embedding works on
character lists so that matching is fully structural). -/
def lowerChars (s : String) : List Char := s.toList.map Char.toLower

/-- Case-insensitive substring test, embedding `RegExp.test` for the purely
literal patterns of `isRetryableError` (every pattern has the `i` flag or
is digits-only). -/
def containsCI (hay pat : String) : Bool :=
  (lowerChars hay).tails.any fun t => (lowerChars pat).isPrefixOf t

/-- The literal texts of the `retryablePatterns` regexes in
`isRetryableError`. -/
def retryablePatterns : List String :=
  ["network", "timeout", "rate limit", "503", "502", "504", "connection", "temporary"]

/-- Predicate `isRetryableError`: some transient pattern matches the error's message
or name. -/
def isRetryableError (e : JsError) : Bool :=
  retryablePatterns.any fun pattern => containsCI e.message pattern || containsCI e.name pattern

/-- The `for` loop of `withConditionalRetry`: exactly `withRetryGo` except
that the loop also breaks on a non-retryable error and the raw `lastError`
is rethrown (no wrapping). -/
def withConditionalRetryGo (operation : Nat → Except JsError α) (maxAttempts : Nat) :
    Nat → Nat → Except JsError α × Nat
  | _, 0 => (Except.error ⟨"Error", ""⟩, 0)
  | attempt, fuel + 1 =>
    match operation attempt with
    | Except.ok v => (Except.ok v, 1)
    | Except.error e =>
      if isRetryableError e = false ∨ attempt = maxAttempts then
        (Except.error e, 1)
      else
        let rest := withConditionalRetryGo operation maxAttempts (attempt + 1) fuel
        (rest.1, rest.2 + 1)

/-- Function `withConditionalRetry` of the retry utility.  The `context` argument
only feeds the `console.warn` log line in the source, so it does not
influence the returned value. -/
def withConditionalRetry (operation : Nat → Except JsError α) (config : RetryConfig)
    (_context : String) : Except JsError α × Nat :=
  withConditionalRetryGo operation config.maxAttempts 1 config.maxAttempts

/-- Embedding of `Date.getHours` in the minute-instant model. -/
def hourOf (t : Nat) : Nat := t % 1440 / 60

/-- Embedding of `Date.getMinutes` in the minute-instant model. -/
def minuteOf (t : Nat) : Nat := t % 60

/-- The calendar-day index of an instant (days since the epoch). -/
def dayOf (t : Nat) : Nat := t / 1440

/-- Embedding of `Date.getDay` (day of week, 0 = Sunday): the epoch day 1970-01-01 was a
Thursday, day-of-week 4. -/
def getDay (t : Nat) : Nat := (dayOf t + 4) % 7

/-- The configuration the `PostizScheduler` constructor stores on the class:
the parsed `optimalHours`, `postsPerDay`, and the hard-coded
`minGapMinutes = 60`. -/
structure SchedulerEnv where
  optimalHours : List Nat
  postsPerDay : Nat
  minGapMinutes : Nat
  deriving DecidableEq

/-- Method `getNextOptimalTime`: the first listed optimal hour strictly greater
than `fromTime`'s hour, minutes zeroed, same day; otherwise the next day at
the first listed hour.  (The source reads `optimalHours[0]!`, which assumes
a non-empty list; `headD 0` mirrors it under that assumption.) -/
def getNextOptimalTime (env : SchedulerEnv) (fromTime : Nat) : Nat :=
  let currentHour := hourOf fromTime
  match env.optimalHours.find? (fun hour => decide (currentHour < hour)) with
  | some nextHourToday => dayOf fromTime * 1440 + nextHourToday * 60
  | none => (dayOf fromTime + 1) * 1440 + env.optimalHours.headD 0 * 60

/-- Method `isTimeSlotAvailable`: a fixed ±1 hour window around `targetTime`
(`addHours(targetTime, -1)` to `addHours(targetTime, 1)` in the source —
the class field `minGapMinutes` is never consulted).  A failed
`getScheduledPins` query (`Except.error`) yields `false`: the slot is
conservatively treated as unavailable.  Pins whose nullable `scheduled_for`
is `none` never conflict. -/
def isTimeSlotAvailable (_env : SchedulerEnv) (db : Except Unit (List (Option Nat)))
    (targetTime : Nat) : Bool :=
  let gapStart := targetTime - 60
  let gapEnd := targetTime + 60
  match db with
  | Except.error _ => false
  | Except.ok conflictingPosts =>
    let conflicts := conflictingPosts.filter fun pin =>
      match pin with
      | none => false
      | some scheduledTime => decide (gapStart ≤ scheduledTime) && decide (scheduledTime ≤ gapEnd)
    decide (conflicts.length = 0)

/-- The bounded `while` loop of `findOptimalPostingTime`: at most `fuel`
availability checks (50 in the source); on conflict the candidate advances
to `getNextOptimalTime(addHours(targetDate, 1))`. -/
def findOptimalLoop (env : SchedulerEnv) (db : Except Unit (List (Option Nat))) :
    Nat → Nat → Option Nat
  | _, 0 => none
  | targetDate, fuel + 1 =>
    if isTimeSlotAvailable env db targetDate then some targetDate
    else findOptimalLoop env db (getNextOptimalTime env (targetDate + 60)) fuel

/-- Method `findOptimalPostingTime`: search from `getNextOptimalTime(now)` through
at most 50 candidates; if the bound is exhausted, fall back to tomorrow at
the first configured optimal hour. -/
def findOptimalPostingTime (env : SchedulerEnv) (db : Except Unit (List (Option Nat)))
    (now : Nat) : Nat :=
  match findOptimalLoop env db (getNextOptimalTime env now) 50 with
  | some t => t
  | none => (dayOf now + 1) * 1440 + env.optimalHours.headD 0 * 60

/-- Insertion of an element into an ascending list, the building block of
`sortAsc`. -/
def insertSorted (a : Nat) : List Nat → List Nat
  | [] => [a]
  | b :: rest => if a ≤ b then a :: b :: rest else b :: insertSorted a rest

/-- Ascending insertion sort, embedding the effect of JavaScript
`array.sort((a, b) => a.getTime() - b.getTime())` (an ascending sort). -/
def sortAsc (l : List Nat) : List Nat := l.foldr insertSorted []

/-- The `sortedPosts` value of `getScheduleStats`: drop pins with a null
`scheduled_for`, keep the instants, sort ascending. -/
def sortScheduled (pins : List (Option Nat)) : List Nat :=
  sortAsc (pins.filterMap id)

/-- The `totalGapHours` accumulation loop of `getScheduleStats`: sum of
consecutive differences in hours over a list of instants. -/
def totalGapHours : List Nat → ℚ
  | a :: b :: rest => ((b : ℚ) - (a : ℚ)) / 60 + totalGapHours (b :: rest)
  | _ => 0

/-- The `averageGapHours` field of `getScheduleStats`: mean consecutive gap
in hours over the sorted instants (`0` when `gapCount = 0`), rounded to two
decimals via `Math.round(x * 100) / 100`. -/
def statsAverageGapHours (pins : List (Option Nat)) : ℚ :=
  let sortedPosts := sortScheduled pins
  let gapCount := sortedPosts.length - 1
  let averageGapHours := if 0 < gapCount then totalGapHours sortedPosts / gapCount else 0
  (round (averageGapHours * 100) : ℚ) / 100

/-- The `postsThisWeek` field of `getScheduleStats`: `thisWeekStart` is
`now` moved back by `now.getDay()` days via `setDate`, which keeps `now`'s
time of day; a pin counts when its non-null `scheduled_for` is
`≥ thisWeekStart`.  (Nat subtraction truncates at the epoch, before which
no instant of this application exists.) -/
def statsPostsThisWeek (pins : List (Option Nat)) (now : Nat) : Nat :=
  let thisWeekStart := now - getDay now * 1440
  (pins.filter fun pin =>
    match pin with
    | none => false
    | some t => decide (thisWeekStart ≤ t)).length

/-- Modelled from the spec sentence for `postsThisWeek` (the claim's
reading): the week starts at the *beginning* of the most recent day-0, so
instants earlier in that day than `now`'s own time of day are counted.
Defined only to be compared against `statsPostsThisWeek`. -/
def claimedPostsThisWeek (pins : List (Option Nat)) (now : Nat) : Nat :=
  let startOfWeekDay := (dayOf now - getDay now) * 1440
  (pins.filter fun pin =>
    match pin with
    | none => false
    | some t => decide (startOfWeekDay ≤ t)).length

/-- The `OptimizedContent` fields `formatContentForPinterest` reads, with
text as lists of characters (JavaScript strings). -/
structure OptimizedContent where
  title : List Char
  description : List Char
  hashtags : List (List Char)
  deriving DecidableEq

/-- The value `formattedContent` holds just before the length check in
`formatContentForPinterest`: title, blank line, description, and — when
hashtags exist — a blank line and the first 30 hashtags, each prefixed
with `#`, space-separated. -/
def pinterestCombined (content : OptimizedContent) : List Char :=
  let withTitle := content.title ++ ['\n', '\n'] ++ content.description
  if 0 < content.hashtags.length then
    withTitle ++ ['\n', '\n'] ++
      List.intercalate [' '] ((content.hashtags.take 30).map fun tag => '#' :: tag)
  else withTitle

/-- Method `formatContentForPinterest`: truncate to the first 497 characters plus
`"..."` whenever the combined text exceeds 500 characters. -/
def formatContentForPinterest (content : OptimizedContent) : List Char :=
  let formattedContent := pinterestCombined content
  if 500 < formattedContent.length then formattedContent.take 497 ++ ['.', '.', '.']
  else formattedContent

/-- The candidate predicate characterising `getNextOptimalTime` on sorted
hour lists: a minute-zeroed instant whose hour is optimal, at or after the
start of the hour following `fromTime`'s hour. -/
def candidateAfterHour (optimalHours : List Nat) (fromTime u : Nat) : Prop :=
  u % 60 = 0 ∧ hourOf u ∈ optimalHours ∧
    dayOf fromTime * 1440 + (hourOf fromTime + 1) * 60 ≤ u

/-- The retry loop, entered at `attempt` with enough fuel, returns the value
of the first successful attempt `k` and reports `k + 1 - attempt`
invocations, provided attempts `attempt, …, k - 1` all fail. -/
theorem withRetryGo_success {α : Type} (operation : Nat → Except JsError α) (N : Nat)
    (context : String) (k : Nat) (v : α) (hkN : k ≤ N) (hok : operation k = Except.ok v) :
    ∀ fuel attempt, attempt ≤ k → N - attempt < fuel →
      (∀ i, attempt ≤ i → i < k → ∃ e, operation i = Except.error e) →
      withRetryGo operation N context attempt fuel = (Except.ok v, k + 1 - attempt) := by
  intro fuel
  induction fuel with
  | zero => intro attempt _ hfuel _; omega
  | succ fuel ih =>
    intro attempt hak hfuel hfail
    by_cases hk : attempt = k
    · subst hk
      simp only [withRetryGo, hok]
      exact congrArg _ (by omega)
    · have hlt : attempt < k := lt_of_le_of_ne hak hk
      obtain ⟨e, he⟩ := hfail attempt le_rfl hlt
      have hne : ¬ attempt = N := by omega
      simp only [withRetryGo, he, if_neg hne]
      rw [ih (attempt + 1) (by omega) (by omega) (fun i h1 h2 => hfail i (by omega) h2)]
      exact congrArg _ (by omega)

/-- The retry loop, entered at `attempt ≤ N` with enough fuel, performs
`N + 1 - attempt` invocations and produces the wrapped error when every
attempt up to `N` fails. -/
theorem withRetryGo_failure {α : Type} (operation : Nat → Except JsError α) (N : Nat)
    (context : String) (e : JsError) (hlast : operation N = Except.error e) :
    ∀ fuel attempt, attempt ≤ N → N - attempt < fuel →
      (∀ i, attempt ≤ i → i ≤ N → ∃ e', operation i = Except.error e') →
      withRetryGo operation N context attempt fuel =
        (Except.error ⟨"Error", retryErrorMessage context N e.message⟩, N + 1 - attempt) := by
  intro fuel
  induction fuel with
  | zero => intro attempt _ hfuel _; omega
  | succ fuel ih =>
    intro attempt haN hfuel hfail
    by_cases hk : attempt = N
    · subst hk
      simp [withRetryGo, hlast]
    · obtain ⟨e', he'⟩ := hfail attempt le_rfl haN
      simp only [withRetryGo, he', if_neg hk]
      rw [ih (attempt + 1) (by omega) (by omega) (fun i h1 h2 => hfail i (by omega) h2)]
      exact congrArg _ (by omega)

/-- C1: for every operation, every `RetryConfig` with `maxAttempts ≥ 1`, and
every label: if some attempt `k ≤ maxAttempts` succeeds while all earlier
attempts throw, `withRetry` returns that attempt's value having invoked the
operation exactly `k` times; if every attempt throws, it invokes the
operation exactly `maxAttempts` times and throws a single wrapped error
whose message names the label, the `maxAttempts` count, and the last
underlying error's message. -/
theorem withRetry_spec {α : Type} (operation : Nat → Except JsError α) (config : RetryConfig)
    (context : String) (hmax : 1 ≤ config.maxAttempts) :
    (∀ k v, 1 ≤ k → k ≤ config.maxAttempts →
      (∀ i, 1 ≤ i → i < k → ∃ e, operation i = Except.error e) →
      operation k = Except.ok v →
      withRetry operation config context = (Except.ok v, k)) ∧
    (∀ e, (∀ i, 1 ≤ i → i ≤ config.maxAttempts → ∃ e', operation i = Except.error e') →
      operation config.maxAttempts = Except.error e →
      withRetry operation config context =
        (Except.error ⟨"Error", retryErrorMessage context config.maxAttempts e.message⟩,
          config.maxAttempts)) := by
  constructor
  · intro k v hk1 hkN hfail hok
    have h := withRetryGo_success operation config.maxAttempts context k v hkN hok
      config.maxAttempts 1 hk1 (by omega) (fun i h1 h2 => hfail i h1 h2)
    rw [withRetry, h]
    exact congrArg _ (by omega)
  · intro e hfail hlast
    have h := withRetryGo_failure operation config.maxAttempts context e hlast
      config.maxAttempts 1 hmax (by omega) (fun i h1 h2 => hfail i h1 h2)
    rw [withRetry, h]
    exact congrArg _ (by omega)

/-- Witness for C1: an operation succeeding on attempt 2 of 3 yields its
value after exactly 2 invocations; an always-failing operation is invoked
exactly 3 times and the wrapped message spells out label, attempt count and
last error. -/
theorem withRetry_spec_witness :
    withRetry (fun i => if i = 2 then Except.ok 7 else Except.error ⟨"Error", "boom"⟩)
        ⟨3, 1000, 30000, 2⟩ "op" = (Except.ok 7, 2) ∧
    withRetry (fun _ => Except.error (α := Nat) ⟨"Error", "down"⟩) ⟨3, 1000, 30000, 2⟩ "op" =
      (Except.error ⟨"Error", "op failed after 3 attempts. Last error: down"⟩, 3) := by
  constructor
  · exact (withRetry_spec _ _ _ (by decide)).1 2 7 (by decide) (by decide)
      (fun i h1 h2 => ⟨⟨"Error", "boom"⟩, by
        have hi : i = 1 := by omega
        subst hi; rfl⟩) rfl
  · exact (withRetry_spec (fun _ => Except.error (α := Nat) ⟨"Error", "down"⟩)
      ⟨3, 1000, 30000, 2⟩ "op" (by decide)).2 ⟨"Error", "down"⟩
      (fun i _ _ => ⟨⟨"Error", "down"⟩, rfl⟩) rfl

/-- C5: an operation whose first invocation throws an error matching none of
the transient-error patterns is propagated immediately by
`withConditionalRetry`: the raw error is rethrown after exactly one
invocation, with the remaining attempts unconsumed. -/
theorem withConditionalRetry_nonretryable {α : Type} (operation : Nat → Except JsError α)
    (config : RetryConfig) (context : String) (hmax : 1 ≤ config.maxAttempts) (e : JsError)
    (h1 : operation 1 = Except.error e) (hnr : isRetryableError e = false) :
    withConditionalRetry operation config context = (Except.error e, 1) := by
  obtain ⟨m, hm⟩ : ∃ m, config.maxAttempts = m + 1 := ⟨config.maxAttempts - 1, by omega⟩
  rw [withConditionalRetry, hm]
  simp only [withConditionalRetryGo, h1]
  rw [if_pos (Or.inl hnr)]

/-- Witness for C5: the non-matching message "invalid input" is thrown
unchanged after exactly one of the three allowed attempts. -/
theorem withConditionalRetry_nonretryable_witness :
    withConditionalRetry (fun _ => Except.error (α := Nat) ⟨"Error", "invalid input"⟩)
        ⟨3, 1000, 30000, 2⟩ "op" = (Except.error ⟨"Error", "invalid input"⟩, 1) :=
  withConditionalRetry_nonretryable _ _ _ (by decide) _ rfl (by decide)

/-- The conditional-retry loop, entered at `attempt ≤ N` with enough fuel,
performs `N + 1 - attempt` invocations and rethrows the raw last error when
every attempt up to `N` fails with a retryable error. -/
theorem withConditionalRetryGo_exhausted {α : Type} (operation : Nat → Except JsError α)
    (N : Nat) (e : JsError) (hlast : operation N = Except.error e) :
    ∀ fuel attempt, attempt ≤ N → N - attempt < fuel →
      (∀ i, attempt ≤ i → i ≤ N →
        ∃ e', operation i = Except.error e' ∧ isRetryableError e' = true) →
      withConditionalRetryGo operation N attempt fuel = (Except.error e, N + 1 - attempt) := by
  intro fuel
  induction fuel with
  | zero => intro attempt _ hfuel _; omega
  | succ fuel ih =>
    intro attempt haN hfuel hfail
    by_cases hk : attempt = N
    · subst hk
      simp [withConditionalRetryGo, hlast]
    · obtain ⟨e', he', hre⟩ := hfail attempt le_rfl haN
      have hcond : ¬ (isRetryableError e' = false ∨ attempt = N) := by simp [hre, hk]
      simp only [withConditionalRetryGo, he', if_neg hcond]
      rw [ih (attempt + 1) (by omega) (by omega) (fun i h1 h2 => hfail i (by omega) h2)]
      exact congrArg _ (by omega)

/-- Counterexample to C6: `withConditionalRetry`, exhausted by retryable
errors, rethrows the raw last error.  At `maxAttempts = 2` with the label
`"createPostizPost"` and the message `"network failure"` on every attempt,
the thrown error's message is exactly `"network failure"`: it contains
neither the label nor the attempt count, and it differs from the wrapped
message `withRetry` would build. -/
theorem withConditionalRetry_unwrapped_counterexample :
    withConditionalRetry (fun _ => Except.error (α := Nat) ⟨"Error", "network failure"⟩)
        ⟨2, 1000, 30000, 2⟩ "createPostizPost" =
      (Except.error ⟨"Error", "network failure"⟩, 2) ∧
    isRetryableError ⟨"Error", "network failure"⟩ = true ∧
    containsCI "network failure" "createPostizPost" = false ∧
    containsCI "network failure" "2" = false ∧
    "network failure" ≠ retryErrorMessage "createPostizPost" 2 "network failure" :=
  ⟨by rfl, by decide, by decide, by decide, by decide⟩

/-- C6 (amended): when every one of the `maxAttempts` attempts fails with a
retryable error, `withConditionalRetry` invokes the operation exactly
`maxAttempts` times and then rethrows the last underlying error itself,
unchanged — unlike `withRetry`, it does not wrap it with the label and
attempt count. -/
theorem withConditionalRetry_exhausted {α : Type} (operation : Nat → Except JsError α)
    (config : RetryConfig) (context : String) (hmax : 1 ≤ config.maxAttempts) (e : JsError)
    (hfail : ∀ i, 1 ≤ i → i ≤ config.maxAttempts →
      ∃ e', operation i = Except.error e' ∧ isRetryableError e' = true)
    (hlast : operation config.maxAttempts = Except.error e) :
    withConditionalRetry operation config context = (Except.error e, config.maxAttempts) := by
  have h := withConditionalRetryGo_exhausted operation config.maxAttempts e hlast
    config.maxAttempts 1 hmax (by omega) (fun i h1 h2 => hfail i h1 h2)
  rw [withConditionalRetry, h]
  exact congrArg _ (by omega)

/-- Witness for C6 (amended): three retryable failures exhaust the three
attempts and the raw last error is rethrown. -/
theorem withConditionalRetry_exhausted_witness :
    withConditionalRetry (fun _ => Except.error (α := Nat) ⟨"Error", "rate limit hit"⟩)
        ⟨3, 1000, 30000, 2⟩ "op" = (Except.error ⟨"Error", "rate limit hit"⟩, 3) :=
  withConditionalRetry_exhausted _ _ _ (by decide) _
    (fun _ _ _ => ⟨⟨"Error", "rate limit hit"⟩, rfl, by decide⟩) rfl

/-- Counterexample to C7: the jitter is added *before* rounding, so the
result can exceed `maxDelay * 1.25`.  With `baseDelay = maxDelay = 3`,
`backoffFactor = 1`, attempt 1 and the random draw `0.9` (jitter factor
`+0.8`), the delay is `round(3.6) = 4 > 3 * 1.25 = 3.75`.  The draw lies in
the claim's admissible range `[0, 1)`. -/
theorem calculateDelay_exceeds_bound :
    (0 : ℚ) ≤ 9/10 ∧ (9/10 : ℚ) < 1 ∧
    calculateDelay 1 ⟨3, 3, 3, 1⟩ (9/10) = 4 ∧
    ¬ ((calculateDelay 1 ⟨3, 3, 3, 1⟩ (9/10) : ℤ) : ℚ) ≤ 3 * (5/4) := by
  refine ⟨by norm_num, by norm_num, ?_, ?_⟩ <;> norm_num [calculateDelay, round_eq]

/-- C7 (amended): for every attempt, every config with `backoffFactor ≥ 1`
and non-negative delays, and every uniform draw, the computed delay is
non-negative and at most `maxDelay * 1.25 + 1/2` — the extra half
millisecond coming from the final rounding, which can push the value past
the claimed `maxDelay * 1.25`. -/
theorem calculateDelay_bounds (attempt : Nat) (config : RetryConfig) (rand : ℚ)
    (ha : 1 ≤ attempt) (hb : 0 ≤ config.baseDelay) (hm : 0 ≤ config.maxDelay)
    (hf : 1 ≤ config.backoffFactor) (hr0 : 0 ≤ rand) (hr1 : rand < 1) :
    0 ≤ calculateDelay attempt config rand ∧
    ((calculateDelay attempt config rand : ℤ) : ℚ) ≤ config.maxDelay * (5/4) + 1/2 := by
  constructor
  · exact le_max_left 0 _
  · simp only [calculateDelay]
    set d := min (config.baseDelay * config.backoffFactor ^ (attempt - 1)) config.maxDelay
      with hd
    set x := d + d * (1/4) * (rand * 2 - 1) with hx
    have hd0 : 0 ≤ d := le_min (mul_nonneg hb (pow_nonneg (by linarith) _)) hm
    have hdm : d ≤ config.maxDelay := min_le_right _ _
    have hxle : x ≤ config.maxDelay * (5/4) := by rw [hx]; nlinarith
    have hround : ((round x : ℤ) : ℚ) ≤ x + 1/2 := by
      have habs := abs_sub_round x
      rw [abs_le] at habs
      linarith [habs.1]
    push_cast
    refine max_le (by linarith) ?_
    linarith

/-- Witness for C7 (amended): the default-style config at attempt 1 with a
middle draw satisfies both amended bounds. -/
theorem calculateDelay_bounds_witness :
    0 ≤ calculateDelay 1 ⟨3, 1000, 30000, 2⟩ 0 ∧
    ((calculateDelay 1 ⟨3, 1000, 30000, 2⟩ 0 : ℤ) : ℚ) ≤ 30000 * (5/4) + 1/2 :=
  calculateDelay_bounds 1 ⟨3, 1000, 30000, 2⟩ 0 (by decide) (by decide) (by decide)
    (by decide) (by decide) (by decide)

/-- A minute-zeroed instant is its day start plus its hour. -/
theorem minuteZero_decomp (u : Nat) (h : u % 60 = 0) : u = dayOf u * 1440 + hourOf u * 60 := by
  simp only [dayOf, hourOf]
  omega

/-- Hours of day are below 24. -/
theorem hourOf_lt (t : Nat) : hourOf t < 24 := by
  simp only [hourOf]
  omega

/-- Hour of a day start plus an in-range hour. -/
theorem hourOf_mk (d h : Nat) (hh : h < 24) : hourOf (d * 1440 + h * 60) = h := by
  simp only [hourOf]
  omega

/-- In a `≤`-sorted list, the element `find?` locates for the predicate
`c < ·` is minimal among all members above `c`. -/
theorem find?_gt_sorted_min {hs : List Nat} {c nh : Nat} (hsort : hs.Sorted (· ≤ ·))
    (hfind : hs.find? (fun hour => decide (c < hour)) = some nh) :
    ∀ x ∈ hs, c < x → nh ≤ x := by
  induction hs with
  | nil => simp at hfind
  | cons a t ih =>
    rw [List.sorted_cons] at hsort
    by_cases hca : c < a
    · rw [List.find?_cons_of_pos _ (by simpa using hca)] at hfind
      injection hfind with hfind
      subst hfind
      intro x hx _
      rcases List.mem_cons.mp hx with h | h
      · omega
      · exact hsort.1 x h
    · rw [List.find?_cons_of_neg _ (by simpa using hca)] at hfind
      intro x hx hcx
      rcases List.mem_cons.mp hx with h | h
      · subst h; omega
      · exact ih hsort.2 hfind x h hcx

/-- In a `≤`-sorted list, the head bounds every member from below. -/
theorem headD_sorted_le {hs : List Nat} (hsort : hs.Sorted (· ≤ ·)) :
    ∀ x ∈ hs, hs.headD 0 ≤ x := by
  cases hs with
  | nil => intro x hx; simp at hx
  | cons a t =>
    rw [List.sorted_cons] at hsort
    intro x hx
    rcases List.mem_cons.mp hx with h | h
    · subst h; simp
    · simpa using hsort.1 x h

/-- Counterexample to C2: a `from` exactly at an optimal hour (12:00, i.e.
minute 720 with zeroed minutes and hour 12 in the list) is itself the
earliest qualifying instant `≥ from`, yet `getNextOptimalTime` — which
compares hours strictly — skips to 15:00 (minute 900). -/
theorem getNextOptimalTime_skips_exact_hour :
    getNextOptimalTime ⟨[9, 12, 15, 18, 21], 5, 60⟩ 720 = 900 ∧
    720 % 60 = 0 ∧ hourOf 720 ∈ ([9, 12, 15, 18, 21] : List Nat) ∧ 720 ≤ 720 := by
  decide

/-- C2 (amended): for a non-empty, ascending list of optimal hours in
`[0, 23]`, `getNextOptimalTime` returns the least minute-zeroed instant
whose hour-of-day is optimal and which lies at or after the start of the
hour *following* `from`'s hour — same day if a strictly later optimal hour
exists that day, else the first optimal hour of the following day.  (A
`from` exactly at an optimal hour therefore advances to the next one.) -/
theorem getNextOptimalTime_least (env : SchedulerEnv) (t : Nat)
    (hsort : env.optimalHours.Sorted (· ≤ ·)) (h24 : ∀ h ∈ env.optimalHours, h < 24)
    (hne : env.optimalHours ≠ []) :
    candidateAfterHour env.optimalHours t (getNextOptimalTime env t) ∧
    ∀ u, candidateAfterHour env.optimalHours t u → getNextOptimalTime env t ≤ u := by
  cases hfind : env.optimalHours.find? (fun hour => decide (hourOf t < hour)) with
  | some nh =>
    have hval : getNextOptimalTime env t = dayOf t * 1440 + nh * 60 := by
      simp only [getNextOptimalTime, hfind]
    have hnh_mem : nh ∈ env.optimalHours := List.mem_of_find?_eq_some hfind
    have hnh_gt : hourOf t < nh := by simpa using List.find?_some hfind
    have hnh24 : nh < 24 := h24 nh hnh_mem
    rw [hval]
    constructor
    · refine ⟨by omega, ?_, by omega⟩
      rw [hourOf_mk _ _ hnh24]
      exact hnh_mem
    · rintro u ⟨hu60, humem, hulb⟩
      have hu_decomp := minuteZero_decomp u hu60
      have hu24 := hourOf_lt u
      have ht24 := hourOf_lt t
      by_cases hday : dayOf u = dayOf t
      · have hgt : hourOf t < hourOf u := by omega
        have hmin := find?_gt_sorted_min hsort hfind (hourOf u) humem hgt
        omega
      · omega
  | none =>
    have hval : getNextOptimalTime env t
        = (dayOf t + 1) * 1440 + env.optimalHours.headD 0 * 60 := by
      simp only [getNextOptimalTime, hfind]
    have hall : ∀ x ∈ env.optimalHours, ¬ hourOf t < x := by
      intro x hx
      simpa using List.find?_eq_none.mp hfind x hx
    have hhead : env.optimalHours.headD 0 ∈ env.optimalHours := by
      cases hs : env.optimalHours with
      | nil => exact absurd hs hne
      | cons a t' => simp
    have h0 : env.optimalHours.headD 0 < 24 := h24 _ hhead
    have ht24 := hourOf_lt t
    rw [hval]
    constructor
    · refine ⟨by omega, ?_, by omega⟩
      rw [hourOf_mk _ _ h0]
      exact hhead
    · rintro u ⟨hu60, humem, hulb⟩
      have hu_decomp := minuteZero_decomp u hu60
      have hu24 := hourOf_lt u
      have hno : ¬ hourOf t < hourOf u := hall _ humem
      have hhead_le : env.optimalHours.headD 0 ≤ hourOf u := headD_sorted_le hsort _ humem
      omega

/-- Witness for C2 (amended): with hours `[9, 12, 15, 18, 21]`, a 10:00
`from` yields a qualifying instant no later than 12:00 (hence exactly
12:00 by the candidate property) and a 22:00 `from` one no later than
09:00 the next day. -/
theorem getNextOptimalTime_least_witness :
    candidateAfterHour [9, 12, 15, 18, 21] 600
      (getNextOptimalTime ⟨[9, 12, 15, 18, 21], 5, 60⟩ 600) ∧
    getNextOptimalTime ⟨[9, 12, 15, 18, 21], 5, 60⟩ 600 ≤ 720 ∧
    candidateAfterHour [9, 12, 15, 18, 21] 1320
      (getNextOptimalTime ⟨[9, 12, 15, 18, 21], 5, 60⟩ 1320) ∧
    getNextOptimalTime ⟨[9, 12, 15, 18, 21], 5, 60⟩ 1320 ≤ 1980 :=
  ⟨(getNextOptimalTime_least ⟨[9, 12, 15, 18, 21], 5, 60⟩ 600 (by decide) (by decide)
      (by decide)).1,
   (getNextOptimalTime_least ⟨[9, 12, 15, 18, 21], 5, 60⟩ 600 (by decide) (by decide)
      (by decide)).2 720 ⟨by decide, by decide, by decide⟩,
   (getNextOptimalTime_least ⟨[9, 12, 15, 18, 21], 5, 60⟩ 1320 (by decide) (by decide)
      (by decide)).1,
   (getNextOptimalTime_least ⟨[9, 12, 15, 18, 21], 5, 60⟩ 1320 (by decide) (by decide)
      (by decide)).2 1980 ⟨by decide, by decide, by decide⟩⟩

/-- C3: a slot conflicts exactly when some scheduled instant lies within
±1 hour of the candidate; the window is a fixed constant, unaffected by the
configured `minGapMinutes`; and with hours `[9, 12, 15, 18, 21]`, a
candidate of 12:00 (from `now` = 10:00) and one pin scheduled at 12:05,
`findOptimalPostingTime` skips to 15:00 the same day (minute 900). -/
theorem isTimeSlotAvailable_conflict_spec :
    (∀ hours posts g g' db t, isTimeSlotAvailable ⟨hours, posts, g⟩ db t
        = isTimeSlotAvailable ⟨hours, posts, g'⟩ db t) ∧
    (∀ env pins t, isTimeSlotAvailable env (Except.ok pins) t = false ↔
      ∃ s, some s ∈ pins ∧ t - 60 ≤ s ∧ s ≤ t + 60) ∧
    findOptimalPostingTime ⟨[9, 12, 15, 18, 21], 5, 60⟩ (Except.ok [some 725]) 600 = 900 := by
  refine ⟨fun _ _ _ _ _ _ => rfl, ?_, by decide⟩
  intro env pins t
  simp only [isTimeSlotAvailable]
  rw [decide_eq_false_iff_not]
  constructor
  · intro h
    rw [List.length_eq_zero, List.filter_eq_nil_iff] at h
    push_neg at h
    obtain ⟨pin, hpin, hpred⟩ := h
    cases pin with
    | none => simp at hpred
    | some s =>
      simp only [Bool.and_eq_true, decide_eq_true_eq] at hpred
      exact ⟨s, hpin, hpred.1, hpred.2⟩
  · rintro ⟨s, hmem, h1, h2⟩ hlen
    rw [List.length_eq_zero, List.filter_eq_nil_iff] at hlen
    exact hlen (some s) hmem (by simp [h1, h2])

/-- Witness for C3: the conflict-window exemplar, instantiated: a pin at
12:05 conflicts with the 12:00 candidate, so the allocator lands on
15:00. -/
theorem isTimeSlotAvailable_conflict_spec_witness :
    findOptimalPostingTime ⟨[9, 12, 15, 18, 21], 5, 60⟩ (Except.ok [some 725]) 600 = 900 :=
  isTimeSlotAvailable_conflict_spec.2.2

/-- With a failing scheduled-pins lookup every availability check fails, so
the bounded search loop never succeeds, whatever its fuel. -/
theorem findOptimalLoop_error (env : SchedulerEnv) :
    ∀ fuel target, findOptimalLoop env (Except.error ()) target fuel = none := by
  intro fuel
  induction fuel with
  | zero => intro target; rfl
  | succ fuel ih =>
    intro target
    simp only [findOptimalLoop]
    rw [if_neg (by simp [isTimeSlotAvailable])]
    exact ih _

/-- C4: `findOptimalPostingTime` always terminates with some instant and
never throws: it is a total function into instants; a lookup failure makes
every slot unavailable rather than raising; under a persistently failing
lookup the 50-candidate bound is exhausted and the result is tomorrow at
the first configured optimal hour; and in general an exhausted search
returns that same fallback regardless of conflicts. -/
theorem findOptimalPostingTime_total_fallback (env : SchedulerEnv) (now : Nat) :
    (∀ db, ∃ t, findOptimalPostingTime env db now = t) ∧
    (∀ t, isTimeSlotAvailable env (Except.error ()) t = false) ∧
    findOptimalPostingTime env (Except.error ()) now
      = (dayOf now + 1) * 1440 + env.optimalHours.headD 0 * 60 ∧
    (∀ db, findOptimalLoop env db (getNextOptimalTime env now) 50 = none →
      findOptimalPostingTime env db now
        = (dayOf now + 1) * 1440 + env.optimalHours.headD 0 * 60) := by
  refine ⟨fun db => ⟨_, rfl⟩, fun t => rfl, ?_, ?_⟩
  · rw [findOptimalPostingTime, findOptimalLoop_error]
  · intro db h
    rw [findOptimalPostingTime, h]

/-- Witness for C4: with the default hours and `now` = 10:00 of epoch day 0,
a failing lookup yields tomorrow 09:00 (minute 1980), and the error-lookup
slot check reports unavailable. -/
theorem findOptimalPostingTime_total_fallback_witness :
    findOptimalPostingTime ⟨[9, 12, 15, 18, 21], 5, 60⟩ (Except.error ()) 600 = 1980 ∧
    isTimeSlotAvailable ⟨[9, 12, 15, 18, 21], 5, 60⟩ (Except.error ()) 720 = false ∧
    findOptimalPostingTime ⟨[9, 12, 15, 18, 21], 5, 60⟩ (Except.error ()) 0 = 1980 :=
  ⟨(findOptimalPostingTime_total_fallback ⟨[9, 12, 15, 18, 21], 5, 60⟩ 600).2.2.1,
   (findOptimalPostingTime_total_fallback ⟨[9, 12, 15, 18, 21], 5, 60⟩ 600).2.1 720,
   (findOptimalPostingTime_total_fallback ⟨[9, 12, 15, 18, 21], 5, 60⟩ 0).2.2.2
     (Except.error ()) (by decide)⟩

/-- Inserting into a list grows its length by one. -/
theorem length_insertSorted (a : Nat) (l : List Nat) :
    (insertSorted a l).length = l.length + 1 := by
  induction l with
  | nil => rfl
  | cons b t ih =>
    simp only [insertSorted]
    by_cases h : a ≤ b
    · rw [if_pos h]; rfl
    · rw [if_neg h]; simp [ih]

/-- Sorting preserves length. -/
theorem length_sortAsc (l : List Nat) : (sortAsc l).length = l.length := by
  induction l with
  | nil => rfl
  | cons a t ih =>
    show (insertSorted a (sortAsc t)).length = t.length + 1
    rw [length_insertSorted, ih]

/-- The gap accumulation loop computes the sum of consecutive differences
(in hours) of its input list. -/
theorem totalGapHours_eq_zipWith (l : List Nat) :
    totalGapHours l
      = (List.zipWith (fun a b : Nat => ((b : ℚ) - (a : ℚ)) / 60) l l.tail).sum := by
  induction l with
  | nil => rfl
  | cons a t ih =>
    cases t with
    | nil => rfl
    | cons b r =>
      simp only [totalGapHours, List.tail_cons, List.zipWith_cons_cons, List.sum_cons]
      rw [ih, List.tail_cons]

/-- C8: `averageGapHours` is the mean of the consecutive differences (in
hours) over the instants sorted ascending, rounded to two decimals; with
fewer than two instants it is exactly 0 (no division by zero); and for
instants at hours 9, 12 and 18 of one day it equals 4.5. -/
theorem statsAverageGapHours_spec (pins : List (Option Nat)) :
    ((pins.filterMap id).length ≤ 1 → statsAverageGapHours pins = 0) ∧
    (∀ n, (pins.filterMap id).length = n + 2 →
      statsAverageGapHours pins =
        (round ((List.zipWith (fun a b : Nat => ((b : ℚ) - (a : ℚ)) / 60) (sortScheduled pins)
            (sortScheduled pins).tail).sum / (((n : ℚ)) + 1) * 100) : ℚ) / 100) ∧
    statsAverageGapHours [some 540, some 720, some 1080] = 9/2 := by
  have hlen : (sortScheduled pins).length = (pins.filterMap id).length := length_sortAsc _
  refine ⟨?_, ?_, ?_⟩
  · intro h
    simp only [statsAverageGapHours]
    rw [if_neg (by omega)]
    simp
  · intro n hn
    simp only [statsAverageGapHours]
    rw [if_pos (by omega), totalGapHours_eq_zipWith, hlen, hn]
    have h21 : (n + 2 - 1 : Nat) = n + 1 := by omega
    rw [h21]
    push_cast
    rfl
  · have hs : sortScheduled [some 540, some 720, some 1080] = [540, 720, 1080] := by decide
    simp only [statsAverageGapHours, hs]
    norm_num [totalGapHours, round_eq]

/-- Witness for C8: the empty and singleton schedules both give a zero mean
gap, and a two-instant schedule matches the mean-of-differences form. -/
theorem statsAverageGapHours_spec_witness :
    statsAverageGapHours [] = 0 ∧ statsAverageGapHours [some 9] = 0 ∧
    statsAverageGapHours [some 0, some 120] =
      (round ((List.zipWith (fun a b : Nat => ((b : ℚ) - (a : ℚ)) / 60)
          (sortScheduled [some 0, some 120])
          (sortScheduled [some 0, some 120]).tail).sum / (((0 : Nat) : ℚ) + 1) * 100) : ℚ)
        / 100 :=
  ⟨(statsAverageGapHours_spec []).1 (by decide),
   (statsAverageGapHours_spec [some 9]).1 (by decide),
   (statsAverageGapHours_spec [some 0, some 120]).2.1 0 (by decide)⟩

/-- Filtering the non-null instants through a predicate on the value equals
first extracting the instants and then filtering. -/
theorem filter_opt_length (q : Nat → Bool) (pins : List (Option Nat)) :
    (pins.filter fun pin => match pin with
      | none => false
      | some t => q t).length = ((pins.filterMap id).filter q).length := by
  induction pins with
  | nil => rfl
  | cons p rest ih =>
    cases p with
    | none => simpa using ih
    | some s =>
      by_cases h : q s = true
      · simp [List.filter_cons, List.filterMap_cons, h, ih]
      · simp [List.filter_cons, List.filterMap_cons, h, ih]

/-- Counterexample to C9: with `now` = Wednesday 12:00 (minute 9360, epoch
day 6) and a single pin on the week's Sunday at 08:00 (minute 4800, epoch
day 3 — i.e. `dayOf 9360 - getDay 9360`, the most recent day-0), the code
counts 0 posts this week, while the claim's beginning-of-day-0 reading
counts 1: the comparison point keeps `now`'s own time of day. -/
theorem statsPostsThisWeek_counterexample :
    statsPostsThisWeek [some 4800] 9360 = 0 ∧
    claimedPostsThisWeek [some 4800] 9360 = 1 ∧
    getDay 9360 = 3 ∧ getDay 4800 = 0 ∧ dayOf 4800 = dayOf 9360 - getDay 9360 ∧
    hourOf 4800 = 8 ∧ hourOf 9360 = 12 := by
  decide

/-- C9 (amended): `postsThisWeek` counts exactly the instants at or after
`now` moved back by `now.getDay()` days with `now`'s time of day kept: the
threshold lies on the most recent day-0, at `now`'s own clock time — so
instants earlier in that day-0 than `now`'s time of day are *not*
counted. -/
theorem statsPostsThisWeek_spec (pins : List (Option Nat)) (now : Nat)
    (h : getDay now * 1440 ≤ now) :
    statsPostsThisWeek pins now =
      ((pins.filterMap id).filter fun t => decide (now - getDay now * 1440 ≤ t)).length ∧
    getDay (now - getDay now * 1440) = 0 ∧
    (now - getDay now * 1440) % 1440 = now % 1440 := by
  refine ⟨?_, ?_, ?_⟩
  · simp only [statsPostsThisWeek]
    exact filter_opt_length _ pins
  · simp only [getDay, dayOf] at h ⊢
    omega
  · simp only [getDay, dayOf] at h ⊢
    omega

/-- Witness for C9 (amended): at `now` = minute 9360 (Wednesday 12:00) the
count over one pin equals the filtered count, the threshold's weekday is 0,
and its time of day equals `now`'s. -/
theorem statsPostsThisWeek_spec_witness :
    statsPostsThisWeek [some 5100] 9360 =
      (([some 5100].filterMap id).filter fun t => decide (9360 - getDay 9360 * 1440 ≤ t)).length ∧
    getDay (9360 - getDay 9360 * 1440) = 0 ∧
    (9360 - getDay 9360 * 1440) % 1440 = 9360 % 1440 :=
  statsPostsThisWeek_spec [some 5100] 9360 (by decide)

/-- C10: the Pinterest post body never exceeds 500 characters; whenever the
combined text exceeds 500 characters the result is exactly its first 497
characters followed by `"..."`; and only the first 30 hashtags influence
the combined text. -/
theorem formatContentForPinterest_spec (content : OptimizedContent) :
    (formatContentForPinterest content).length ≤ 500 ∧
    (500 < (pinterestCombined content).length →
      formatContentForPinterest content
        = (pinterestCombined content).take 497 ++ ['.', '.', '.']) ∧
    pinterestCombined content
      = pinterestCombined ⟨content.title, content.description, content.hashtags.take 30⟩ := by
  refine ⟨?_, ?_, ?_⟩
  · rw [formatContentForPinterest]
    by_cases h : 500 < (pinterestCombined content).length
    · rw [if_pos h]
      simp only [List.length_append, List.length_take, List.length_cons, List.length_nil]
      omega
    · rw [if_neg h]
      omega
  · intro h
    rw [formatContentForPinterest, if_pos h]
  · have hcond : 0 < (content.hashtags.take 30).length ↔ 0 < content.hashtags.length := by
      rw [List.length_take]
      omega
    simp only [pinterestCombined]
    by_cases h : 0 < content.hashtags.length
    · rw [if_pos h, if_pos (hcond.mpr h), List.take_take]
      simp
    · rw [if_neg h, if_neg (fun hc => h (hcond.mp hc))]

set_option maxRecDepth 10000 in
/-- Witness for C10: an over-long description is truncated to 497
characters plus an ellipsis, within the 500-character cap. -/
theorem formatContentForPinterest_spec_witness :
    (formatContentForPinterest ⟨[], List.replicate 600 'a', []⟩).length ≤ 500 ∧
    formatContentForPinterest ⟨[], List.replicate 600 'a', []⟩
      = (pinterestCombined ⟨[], List.replicate 600 'a', []⟩).take 497 ++ ['.', '.', '.'] :=
  ⟨(formatContentForPinterest_spec _).1,
   (formatContentForPinterest_spec _).2.1 (by decide)⟩

end Spec2Proof
